import Mathlib

/-!
Verification of the document-transformation and export pipeline of the
better-export-pdf plugin (sources: `src/render.ts` and the export-modal
module).  The TypeScript functions are shallowly embedded as executable
Lean definitions; machine strings are represented via `String`/`List Char`
and, for the transclusion encoding, as byte lists (`List Nat`, each < 256,
matching the UTF-8 byte stream that `encodeURIComponent` and
`decodeURIComponent` operate on).
-/

/-! ## Generic string helpers

JavaScript's `String.prototype.includes`, first-occurrence
`String.prototype.replace`, `startsWith` and `split` are modelled over
`List Char` so that every definition reduces inside the kernel. -/

/-- `listStartsWith s pat` : does `s` start with `pat`?  (generic over the
element type; used both for `List Char` and for byte lists). -/
def listStartsWith {α : Type} [BEq α] : List α → List α → Bool
  | _, [] => true
  | [], _ :: _ => false
  | c :: cs, p :: ps => c == p && listStartsWith cs ps

/-- `containsSubL s pat` : does `pat` occur as a contiguous substring of `s`?
Mirrors JavaScript `s.includes(pat)`. -/
def containsSubL {α : Type} [BEq α] : List α → List α → Bool
  | [], pat => listStartsWith ([] : List α) pat
  | c :: cs, pat => listStartsWith (c :: cs) pat || containsSubL cs pat

/-- Replace the first occurrence of `pat` in `s` by `repl`; if `pat` does not
occur, `s` is returned unchanged.  Mirrors JavaScript `s.replace(pat, repl)`
for a plain (non-regex) pattern. -/
def replaceFirstL {α : Type} [BEq α] (pat repl : List α) : List α → List α
  | [] => if listStartsWith ([] : List α) pat then repl else []
  | c :: cs =>
    if listStartsWith (c :: cs) pat then repl ++ (c :: cs).drop pat.length
    else c :: replaceFirstL pat repl cs

/-- JavaScript `s.split(sep)` for a one-character separator, over char lists. -/
def splitOnCharL (sep : Char) : List Char → List (List Char)
  | [] => [[]]
  | c :: cs =>
    let r := splitOnCharL sep cs
    if c == sep then [] :: r
    else
      match r with
      | [] => [[c]]
      | h :: t => (c :: h) :: t

/-- String wrapper for `containsSubL` (JavaScript `includes`). -/
def containsSub (s pat : String) : Bool := containsSubL s.data pat.data

/-- String wrapper for `replaceFirstL` (JavaScript first-occurrence `replace`). -/
def replaceFirst (s pat repl : String) : String := ⟨replaceFirstL pat.data repl.data s.data⟩

/-- String wrapper for `listStartsWith` (JavaScript `startsWith`). -/
def strStartsWith (s pat : String) : Bool := listStartsWith s.data pat.data

/-- JavaScript `s.split(sep)` for a one-character separator. -/
def splitOnCharS (sep : Char) (s : String) : List String :=
  (splitOnCharL sep s.data).map (fun l => ⟨l⟩)

theorem listStartsWith_append_self {α : Type} [BEq α] [LawfulBEq α]
    (p t : List α) : listStartsWith (p ++ t) p = true := by
  induction p with
  | nil => cases t <;> rfl
  | cons c cs ih => simp [listStartsWith, ih]

theorem listStartsWith_self {α : Type} [BEq α] [LawfulBEq α]
    (s : List α) : listStartsWith s s = true := by
  simpa using listStartsWith_append_self s []

theorem containsSubL_of_startsWith {α : Type} [BEq α]
    {s pat : List α} (h : listStartsWith s pat = true) :
    containsSubL s pat = true := by
  cases s with
  | nil => simpa [containsSubL] using h
  | cons c cs => simp [containsSubL, h]

theorem containsSubL_append_left {α : Type} [BEq α]
    (t : List α) {s pat : List α} (h : containsSubL s pat = true) :
    containsSubL (t ++ s) pat = true := by
  induction t with
  | nil => simpa using h
  | cons c cs ih =>
    show containsSubL (c :: (cs ++ s)) pat = true
    simp only [containsSubL]
    simp [ih]

theorem containsSubL_replaceFirstL {α : Type} [BEq α] [LawfulBEq α]
    {s pat : List α} (repl : List α) (h : containsSubL s pat = true) :
    containsSubL (replaceFirstL pat repl s) repl = true := by
  induction s with
  | nil =>
    simp only [containsSubL] at h
    simp only [replaceFirstL, h, if_pos]
    exact containsSubL_of_startsWith (listStartsWith_self repl)
  | cons c cs ih =>
    cases hs : listStartsWith (c :: cs) pat with
    | true =>
      simp only [replaceFirstL, hs, if_pos]
      exact containsSubL_of_startsWith (listStartsWith_append_self repl _)
    | false =>
      simp only [containsSubL, hs, Bool.false_or] at h
      have hrw : replaceFirstL pat repl (c :: cs) = c :: replaceFirstL pat repl cs := by
        simp [replaceFirstL, hs]
      rw [hrw]
      simp [containsSubL, ih h]

/-! ## Internal-link repair (claim C4)

`renderMarkdown` (src/render.ts, lines 260-268): for every `a.internal-link`
element, split `el.dataset.href` on `#`; the link keeps its `href` exactly
when the title part is absent, empty, or equal to the current file's
basename AND the anchor part starts with `^`; otherwise `href` is removed. -/

/-- An internal link: its `data-href` attribute (absent when the dataset has
no such entry) and its `href` attribute (absent once stripped). -/
structure LinkM where
  dataHref : Option String
  href : Option String
deriving DecidableEq

/-- `el.dataset.href?.split("#") ?? []`. -/
def linkParts (dataHref : Option String) : List String :=
  match dataHref with
  | none => []
  | some s => splitOnCharS '#' s

/-- The guard of the early `return`: `(!title || title?.length == 0 ||
title == file.basename) && anchor?.startsWith("^")`. -/
def keepHref (dataHref : Option String) (basename : String) : Bool :=
  (match (linkParts dataHref).get? 0 with
   | none => true
   | some s => s == "" || s == basename) &&
  (match (linkParts dataHref).get? 1 with
   | some s => strStartsWith s "^"
   | none => false)

/-- Per-link action of the `forEach` body. -/
def repairLink (basename : String) (l : LinkM) : LinkM :=
  if keepHref l.dataHref basename then l else { l with href := none }

/-- The whole `printEl.findAll("a.internal-link").forEach(...)` pass. -/
def repairLinks (links : List LinkM) (basename : String) : List LinkM :=
  links.map (repairLink basename)

theorem keepHref_iff (dh : Option String) (bn : String) :
    keepHref dh bn = true ↔
      ((linkParts dh).get? 0 = none ∨ (linkParts dh).get? 0 = some "" ∨
        (linkParts dh).get? 0 = some bn) ∧
      (∃ a, (linkParts dh).get? 1 = some a ∧ strStartsWith a "^" = true) := by
  unfold keepHref
  cases h0 : (linkParts dh).get? 0 <;> cases h1 : (linkParts dh).get? 1 <;>
    simp [h0, h1, Bool.or_eq_true, beq_iff_eq, or_comm]

/-- Claim C4: every internal link whose `data-href` title part does not
resolve to the current document (empty/absent title or the document's
basename), or whose anchor part does not start with the block-anchor marker
`^`, has its `href` removed; links satisfying both conditions are kept
unchanged. -/
theorem C4_internal_link_repair (links : List LinkM) (bn : String) (j : Nat)
    (hj : j < links.length) :
    ((((linkParts (links.getD j ⟨none, none⟩).dataHref).get? 0 = none ∨
       (linkParts (links.getD j ⟨none, none⟩).dataHref).get? 0 = some "" ∨
       (linkParts (links.getD j ⟨none, none⟩).dataHref).get? 0 = some bn) ∧
      (∃ a, (linkParts (links.getD j ⟨none, none⟩).dataHref).get? 1 = some a ∧
        strStartsWith a "^" = true)) →
      (repairLinks links bn).getD j ⟨none, none⟩ = links.getD j ⟨none, none⟩) ∧
    (¬ (((linkParts (links.getD j ⟨none, none⟩).dataHref).get? 0 = none ∨
        (linkParts (links.getD j ⟨none, none⟩).dataHref).get? 0 = some "" ∨
        (linkParts (links.getD j ⟨none, none⟩).dataHref).get? 0 = some bn) ∧
       (∃ a, (linkParts (links.getD j ⟨none, none⟩).dataHref).get? 1 = some a ∧
         strStartsWith a "^" = true)) →
      (repairLinks links bn).getD j ⟨none, none⟩ =
        { links.getD j ⟨none, none⟩ with href := none }) := by
  have hget : links.get? j = some (links.getD j ⟨none, none⟩) := by
    rw [List.getD_eq_getD_get?]
    cases h : links.get? j with
    | none => exact absurd (List.get?_eq_none.mp h) (by omega)
    | some l => rfl
  have hmap : (repairLinks links bn).getD j ⟨none, none⟩ =
      repairLink bn (links.getD j ⟨none, none⟩) := by
    unfold repairLinks
    rw [List.getD_eq_getD_get?, List.get?_map, hget]
    rfl
  constructor
  · intro h
    rw [hmap]
    unfold repairLink
    rw [if_pos ((keepHref_iff _ _).mpr h)]
  · intro h
    rw [hmap]
    unfold repairLink
    rw [if_neg (fun hk => h ((keepHref_iff _ _).mp hk))]

theorem C4_internal_link_repair_witness :
    (0 < ([⟨some "#^abc", some "x"⟩, ⟨some "Other#sec", some "y"⟩] : List LinkM).length) ∧
    (repairLinks [⟨some "#^abc", some "x"⟩, ⟨some "Other#sec", some "y"⟩] "Note").getD 0 ⟨none, none⟩ =
      ⟨some "#^abc", some "x"⟩ ∧
    (repairLinks [⟨some "#^abc", some "x"⟩, ⟨some "Other#sec", some "y"⟩] "Note").getD 1 ⟨none, none⟩ =
      ⟨some "Other#sec", none⟩ := by
  refine ⟨by decide, ?_, ?_⟩
  · exact (C4_internal_link_repair [⟨some "#^abc", some "x"⟩, ⟨some "Other#sec", some "y"⟩]
      "Note" 0 (by decide)).1 (by decide)
  · exact (C4_internal_link_repair [⟨some "#^abc", some "x"⟩, ⟨some "Other#sec", some "y"⟩]
      "Note" 1 (by decide)).2 (by decide)

/-! ## Preview scale computation (claim C5)

`ExportConfigModal.calcPageSize`: `scale = Math.floor((mm2px(width) /
el.offsetWidth) * 100) / 100`. -/

/-- Modelled from the spec: `mm2px` is imported from `src/utils.ts`, which is
absent from the provided sources.  §4.4 of the spec fixes the conversion
(1 pixel = 1/96 inch = 25.4/96 mm), so `w` millimeters are `w * 96 / 25.4`
pixels. -/
def mm2px (mm : ℚ) : ℚ := mm * 96 / (254 / 10)

/-- The scale computation of `calcPageSize`:
`Math.floor((mm2px(width) / el.offsetWidth) * 100) / 100`. -/
def calcScale (widthMm containerWidthPx : ℚ) : ℚ :=
  (⌊mm2px widthMm / containerWidthPx * 100⌋ : ℚ) / 100

/-- Claim C5: recomputing the preview scale with unchanged inputs yields the
same value, and for a fixed page width the scale is antitone in the
container width. -/
theorem C5_scale_idempotent_antitone (w c1 c2 : ℚ)
    (hw : 0 ≤ w) (h1 : 0 < c1) (h12 : c1 ≤ c2) :
    calcScale w c1 = calcScale w c1 ∧ calcScale w c2 ≤ calcScale w c1 := by
  refine ⟨rfl, ?_⟩
  have h2 : (0 : ℚ) < c2 := lt_of_lt_of_le h1 h12
  have hpx : (0 : ℚ) ≤ mm2px w := by
    unfold mm2px
    positivity
  have hdiv : mm2px w / c2 ≤ mm2px w / c1 := by gcongr
  have hmul : mm2px w / c2 * 100 ≤ mm2px w / c1 * 100 :=
    mul_le_mul_of_nonneg_right hdiv (by norm_num)
  have hfl : (⌊mm2px w / c2 * 100⌋ : ℚ) ≤ (⌊mm2px w / c1 * 100⌋ : ℚ) := by
    exact_mod_cast Int.floor_le_floor hmul
  unfold calcScale
  linarith

theorem C5_scale_witness :
    (0 : ℚ) ≤ 210 ∧ (0 : ℚ) < 800 ∧ (800 : ℚ) ≤ 1000 ∧
    calcScale 210 800 = calcScale 210 800 ∧ calcScale 210 1000 ≤ calcScale 210 800 := by
  refine ⟨by norm_num, by norm_num, by norm_num, ?_⟩
  exact C5_scale_idempotent_antitone 210 800 1000 (by norm_num) (by norm_num) (by norm_num)

/-! ## Export-session configuration defaults (claim C10)

`ExportConfigModal`'s constructor builds `this.config` from literal defaults,
plugin settings, and the spread of `plugin.settings.prevConfig` (which, when
present, overrides the defaults wholesale). -/

/-- The `TConfig` object as populated by the constructor.  The TypeScript
field `open` is a Lean keyword and is rendered as `openAfterExport`. -/
structure TConfigM where
  pageSize : String
  marginType : String
  showTitle : Bool
  openAfterExport : Bool
  scale : Nat
  landscape : Bool
  marginTop : String
  marginBottom : String
  marginLeft : String
  marginRight : String
  displayHeader : Bool
  displayFooter : Bool
  cssSnippet : String
deriving DecidableEq

/-- The slice of `plugin.settings` read by the constructor. -/
structure PluginSettingsM where
  showTitle : Option Bool
  displayHeader : Option Bool
  prevConfig : Option TConfigM

/-- The constructor's `this.config = { ...literals, ...(plugin.settings?.prevConfig ?? {}) }`.
Note that the source initializes `displayFooter` from
`plugin.settings.displayHeader ?? true` (not from a footer setting). -/
def initConfig (s : PluginSettingsM) : TConfigM :=
  match s.prevConfig with
  | some c => c
  | none =>
    { pageSize := "A4"
      marginType := "1"
      showTitle := s.showTitle.getD true
      openAfterExport := true
      scale := 100
      landscape := false
      marginTop := "10"
      marginBottom := "10"
      marginLeft := "10"
      marginRight := "10"
      displayHeader := s.displayHeader.getD true
      displayFooter := s.displayHeader.getD true
      cssSnippet := "0" }

/-- Claim C10: with no persisted previous configuration, the footer-visibility
default is taken from the persisted header-visibility setting, so the header
and footer visibility defaults always coincide. -/
theorem C10_footer_default_from_header (s : PluginSettingsM)
    (h : s.prevConfig = none) :
    (initConfig s).displayFooter = s.displayHeader.getD true ∧
    (initConfig s).displayFooter = (initConfig s).displayHeader := by
  unfold initConfig
  rw [h]
  exact ⟨rfl, rfl⟩

theorem C10_footer_default_from_header_witness :
    (PluginSettingsM.mk (some true) (some false) none).prevConfig = none ∧
    (initConfig ⟨some true, some false, none⟩).displayFooter =
      (Option.some false).getD true ∧
    (initConfig ⟨some true, some false, none⟩).displayFooter =
      (initConfig ⟨some true, some false, none⟩).displayHeader :=
  ⟨rfl, C10_footer_default_from_header ⟨some true, some false, none⟩ rfl⟩

/-! ## Declined output-path selection (claim C8)

`handleExport` (export modal, `onOpen`): after persisting settings it prompts
for an output directory (multiple-output mode) or an output file (single
mode); when the prompt result is falsy no PDF-generation request is issued
and `this.close()` is not called. -/

/-- Observable outcome of one `handleExport` run: the list of destination
paths passed to `exportToPDF`, and whether the modal was closed. -/
structure ExportOutcome where
  requests : List String
  closed : Bool
deriving DecidableEq

/-- JavaScript truthiness of the prompt result (`undefined` and `""` are
falsy). -/
def truthyPath : Option String → Bool
  | none => false
  | some s => !(s == "")

/-- The export-confirmation handler.  `getOutputPath`/`getOutputFile` live in
`src/pdf.ts` (not under the provided sources); their results enter as the
`outputPath`/`outputFile` parameters.  In multiple mode one request per
rendered document is issued at `outputPath/basename.pdf`; in single mode one
request at `outputFile`. -/
def handleExport (multiple : Bool) (outputPath outputFile : Option String)
    (basenames : List String) : ExportOutcome :=
  if multiple then
    if truthyPath outputPath then
      { requests := basenames.map (fun b => outputPath.getD "" ++ "/" ++ b ++ ".pdf")
        closed := true }
    else { requests := [], closed := false }
  else
    if truthyPath outputFile then
      { requests := [outputFile.getD ""], closed := true }
    else { requests := [], closed := false }

/-- Claim C8: when the output-path (resp. output-file) prompt yields no path,
the export is abandoned: no PDF-generation request is issued and the modal
stays open. -/
theorem C8_declined_output_abandons (multiple : Bool)
    (outputPath outputFile : Option String) (basenames : List String)
    (hp : outputPath = none) (hf : outputFile = none) :
    (handleExport multiple outputPath outputFile basenames).requests = [] ∧
    (handleExport multiple outputPath outputFile basenames).closed = false := by
  subst hp hf
  cases multiple <;> simp [handleExport, truthyPath]

theorem C8_declined_output_abandons_witness :
    (none : Option String) = none ∧
    (handleExport true none none ["a", "b", "c"]).requests = [] ∧
    (handleExport true none none ["a", "b", "c"]).closed = false :=
  ⟨rfl, C8_declined_output_abandons true none none ["a", "b", "c"] rfl rfl⟩

/-! ## Click-to-toggle page break (claim C7)

`createWebview` (src/render.ts, lines 338-358) installs a click handler:
if the clicked element's `previousElementSibling` exists and carries the
`pagedjs_page_break` class it is removed, otherwise a fresh page-break `div`
is inserted immediately before the clicked element.  The sibling list of the
relevant parent is modelled as a `List Bool` (`true` = page-break marker
element); a click is addressed by the clicked element's current index. -/

/-- One click on the element at index `i`: returns the updated sibling list
together with the clicked element's new index. -/
def clickIdx (dom : List Bool) (i : Nat) : List Bool × Nat :=
  if 0 < i ∧ dom.getD (i - 1) false = true then (dom.eraseIdx (i - 1), i - 1)
  else (dom.insertIdx i true, i + 1)

/-- Two consecutive clicks on the same element. -/
def doubleClick (dom : List Bool) (i : Nat) : List Bool :=
  let r := clickIdx dom i
  (clickIdx r.1 r.2).1

theorem getD_eraseIdx_lt {α : Type} (l : List α) (k j : Nat) (d : α)
    (h : j < k) : (l.eraseIdx k).getD j d = l.getD j d := by
  induction l generalizing k j with
  | nil => rfl
  | cons c t ih =>
    cases k with
    | zero => omega
    | succ s =>
      cases j with
      | zero => rfl
      | succ r =>
        show (t.eraseIdx s).getD r d = t.getD r d
        exact ih s r (by omega)

theorem insertIdx_eraseIdx_getD {α : Type} (a : α) (l : List α) (j : Nat) (d : α)
    (hj : j < l.length) (ha : l.getD j d = a) :
    (l.eraseIdx j).insertIdx j a = l := by
  induction l generalizing j with
  | nil => simp at hj
  | cons c t ih =>
    cases j with
    | zero =>
      simp only [List.getD_cons_zero] at ha
      simp [List.eraseIdx, List.insertIdx, ha]
    | succ s =>
      have : (t.eraseIdx s).insertIdx s a = t := ih s (by simpa using hj) ha
      simpa [List.eraseIdx, List.insertIdx_succ_cons] using this

theorem getD_insertIdx_self {α : Type} (a : α) (l : List α) (j : Nat) (d : α)
    (hj : j ≤ l.length) : (l.insertIdx j a).getD j d = a := by
  have hlen : j < (l.insertIdx j a).length := by
    rw [List.length_insertIdx j l hj]
    omega
  rw [List.getD_eq_getElem _ _ hlen]
  exact List.getElem_insertIdx_self l a j hj

/-- Counterexample to claim C7 as stated: in a surface state where the
clicked element is preceded by two consecutive page-break markers, two
clicks remove both markers instead of restoring the original state. -/
theorem C7_double_click_counterexample :
    2 < ([true, true, false] : List Bool).length ∧
    doubleClick [true, true, false] 2 ≠ [true, true, false] := by
  constructor
  · decide
  · decide

/-- Claim C7 (amended): clicking toggles a page-break marker immediately
before the element, and two consecutive clicks on the same element restore
the original sibling list whenever the element is not preceded by two
consecutive page-break markers (in that remaining case the two clicks remove
both markers). -/
theorem C7_double_click_toggle (dom : List Bool) (i : Nat)
    (hi : i < dom.length)
    (h2 : ¬(2 ≤ i ∧ dom.getD (i - 1) false = true ∧ dom.getD (i - 2) false = true)) :
    doubleClick dom i = dom := by
  unfold doubleClick clickIdx
  by_cases hc : 0 < i ∧ dom.getD (i - 1) false = true
  · rw [if_pos hc]
    simp only
    by_cases hone : i = 1
    · subst hone
      rw [if_neg (by omega)]
      simp only
      exact insertIdx_eraseIdx_getD true dom 0 false (by omega) hc.2
    · have hge : 2 ≤ i := by omega
      have hfalse : dom.getD (i - 2) false = false := by
        rcases hh : dom.getD (i - 2) false with _ | _
        · rfl
        · exact absurd ⟨hge, hc.2, hh⟩ h2
      rw [if_neg ?_]
      · simp only
        have : i - 1 - 1 = i - 2 := by omega
        exact insertIdx_eraseIdx_getD true dom (i - 1) false (by omega) hc.2
      · intro hcc
        rw [getD_eraseIdx_lt dom (i - 1) (i - 1 - 1) false (by omega)] at hcc
        have : i - 1 - 1 = i - 2 := by omega
        rw [this] at hcc
        rw [hfalse] at hcc
        exact absurd hcc.2 (by simp)
  · rw [if_neg hc]
    simp only
    rw [if_pos ?_]
    · simp only [Nat.add_sub_cancel]
      exact List.eraseIdx_insertIdx i dom
    · constructor
      · omega
      · simp only [Nat.add_sub_cancel]
        exact getD_insertIdx_self true dom i false (by omega)

theorem C7_double_click_toggle_witness :
    1 < ([false, false, true] : List Bool).length ∧
    ¬(2 ≤ 1 ∧ ([false, false, true] : List Bool).getD 0 false = true ∧
      ([false, false, true] : List Bool).getD (1 - 2) false = true) ∧
    doubleClick [false, false, true] 1 = [false, false, true] := by
  refine ⟨by decide, by decide, ?_⟩
  exact C7_double_click_toggle [false, false, true] 1 (by decide) (by decide)

/-! ## Block-anchor placement (claims C2 and C9)

`renderMarkdown` (src/render.ts, lines 193-211).  Pass 1 walks the source
lines; for each line the first not-yet-consumed block anchor whose marker
text `^id` occurs in the line and whose reported line range contains the
line index is consumed: the first occurrence of the marker is replaced by an
inline anchor span and the anchor is deleted from the working map.  Pass 2
prepends a synthetic anchor span to the start line of every anchor left
over.  The `Map` built from `Object.entries(cache.blocks)` is modelled as an
ordered list (object keys are unique and equal to the anchors' `id`
fields); `Map.delete(id)` becomes a filter on `id`. -/

/-- One entry of the host's block-anchor index:
`{ id, position: { start: { line }, end: { line } } }`. -/
structure BlockM where
  id : String
  startLine : Nat
  endLine : Nat
deriving DecidableEq

/-- The literal marker text of an anchor: `` `^${id}` ``. -/
def blockMarker (b : BlockM) : String := "^" ++ b.id

/-- The pass-1 replacement text:
`` `<span id="${blockid}" class="blockid"></span> ${blockid}` ``. -/
def inlineRepl (b : BlockM) : String :=
  "<span id=\"" ++ blockMarker b ++ "\" class=\"blockid\"></span> " ++ blockMarker b

/-- The pass-2 synthetic prefix:
`` `<span id="^${id}" class="blockid"></span>\n\n` ``. -/
def synthSpan (b : BlockM) : String :=
  "<span id=\"" ++ blockMarker b ++ "\" class=\"blockid\"></span>\n\n"

/-- The pass-1 guard:
`line.includes(blockid) && i >= start.line && i <= end.line`. -/
def blockMatches (line : String) (i : Nat) (b : BlockM) : Bool :=
  containsSub line (blockMarker b) && decide (b.startLine ≤ i) && decide (i ≤ b.endLine)

/-- Pass 1 (`lines.map((line, i) => ...)` closing over the mutable `blocks`
map): returns the rewritten lines and the anchors left unconsumed. -/
def phase1 : List String → Nat → List BlockM → List String × List BlockM
  | [], _, bs => ([], bs)
  | l :: ls, i, bs =>
    match bs.find? (blockMatches l i) with
    | some b =>
      (replaceFirst l (blockMarker b) (inlineRepl b) ::
        (phase1 ls (i + 1) (bs.filter (fun x => !(x.id == b.id)))).1,
       (phase1 ls (i + 1) (bs.filter (fun x => !(x.id == b.id)))).2)
    | none =>
      (l :: (phase1 ls (i + 1) bs).1, (phase1 ls (i + 1) bs).2)

/-- Pass 2 (`[...blocks.values()].forEach(...)`): prepend the synthetic span
to the anchor's start line.  (When `start.line` is out of range JavaScript
would extend the sparse array; `List.set` is a no-op there — all theorems
below assume in-range start lines.) -/
def phase2 (lines : List String) (bs : List BlockM) : List String :=
  bs.foldl (fun acc b => acc.set b.startLine (synthSpan b ++ acc.getD b.startLine "")) lines

/-- The whole anchor-placement transformation applied to the raw text
(`data.split("\n")`, the two passes). -/
def placeAnchors (data : String) (blocks : List BlockM) : List String :=
  phase2 (phase1 (splitOnCharS '\n' data) 0 blocks).1
    (phase1 (splitOnCharS '\n' data) 0 blocks).2

/-- The claim's inline condition, following the spec's words: some line
within the anchor's reported range contains the anchor's literal marker
text. -/
def specInlineCond (data : String) (b : BlockM) : Bool :=
  (splitOnCharS '\n' data).enum.any fun p =>
    containsSub p.2 (blockMarker b) && decide (b.startLine ≤ p.1) && decide (p.1 ≤ b.endLine)

/-- Claim C2 as stated, as a predicate on the code's behaviour: every anchor
whose marker appears on a line within its range is consumed inline by
pass 1 (never left to the synthetic fallback). -/
def claimC2holds (data : String) (blocks : List BlockM) : Bool :=
  blocks.all fun b =>
    !(specInlineCond data b) ||
      !((phase1 (splitOnCharS '\n' data) 0 blocks).2.any fun x => x.id == b.id)

theorem phase1_nil (i : Nat) (bs : List BlockM) : phase1 [] i bs = ([], bs) := rfl

theorem phase1_cons_some (l : String) (ls : List String) (i : Nat)
    (bs : List BlockM) (b : BlockM) (h : bs.find? (blockMatches l i) = some b) :
    phase1 (l :: ls) i bs =
      (replaceFirst l (blockMarker b) (inlineRepl b) ::
        (phase1 ls (i + 1) (bs.filter (fun x => !(x.id == b.id)))).1,
       (phase1 ls (i + 1) (bs.filter (fun x => !(x.id == b.id)))).2) := by
  simp only [phase1]
  rw [h]

theorem phase1_cons_none (l : String) (ls : List String) (i : Nat)
    (bs : List BlockM) (h : bs.find? (blockMatches l i) = none) :
    phase1 (l :: ls) i bs =
      (l :: (phase1 ls (i + 1) bs).1, (phase1 ls (i + 1) bs).2) := by
  simp only [phase1]
  rw [h]

/-- Counterexample to claim C2 as stated: with two anchors whose markers sit
on the same line (both in range), pass 1 consumes only the first; the second
anchor falls back to a synthetic span even though a line within its range
contains its literal marker text. -/
theorem C2_anchor_counterexample :
    specInlineCond "x ^a ^b" ⟨"b", 0, 0⟩ = true ∧
    (phase1 (splitOnCharS '\n' "x ^a ^b") 0 [⟨"a", 0, 0⟩, ⟨"b", 0, 0⟩]).2 =
      [⟨"b", 0, 0⟩] ∧
    claimC2holds "x ^a ^b" [⟨"a", 0, 0⟩, ⟨"b", 0, 0⟩] = false := by
  refine ⟨by decide, by decide, by decide⟩

theorem containsSub_append_left (t : String) {s pat : String}
    (h : containsSub s pat = true) : containsSub (t ++ s) pat = true := by
  unfold containsSub at h ⊢
  rw [String.data_append]
  exact containsSubL_append_left t.data h

theorem containsSub_self_append (s t : String) : containsSub (s ++ t) s = true := by
  unfold containsSub
  rw [String.data_append]
  exact containsSubL_of_startsWith (listStartsWith_append_self s.data t.data)

theorem phase1_length (ls : List String) (i : Nat) (bs : List BlockM) :
    (phase1 ls i bs).1.length = ls.length := by
  induction ls generalizing i bs with
  | nil => rfl
  | cons l t ih =>
    cases hf : bs.find? (blockMatches l i) with
    | some b => rw [phase1_cons_some l t i bs b hf]; simp [ih]
    | none => rw [phase1_cons_none l t i bs hf]; simp [ih]

theorem phase1_leftover_sublist (ls : List String) (i : Nat) (bs : List BlockM) :
    (phase1 ls i bs).2.Sublist bs := by
  induction ls generalizing i bs with
  | nil => exact List.Sublist.refl bs
  | cons l t ih =>
    cases hf : bs.find? (blockMatches l i) with
    | some b =>
      rw [phase1_cons_some l t i bs b hf]
      exact (ih (i + 1) _).trans (List.filter_sublist bs)
    | none =>
      rw [phase1_cons_none l t i bs hf]
      exact ih (i + 1) bs

/-- Pass 1 consumption is sound: an anchor that does not survive pass 1 was
consumed on a line whose index lies in its reported range and which contains
its literal marker text; the output line is the marker's first occurrence
replaced by the inline span. -/
theorem phase1_consumed (ls : List String) (i : Nat) (bs : List BlockM)
    (hnd : (bs.map BlockM.id).Nodup) (b : BlockM) (hb : b ∈ bs)
    (hout : b ∉ (phase1 ls i bs).2) :
    ∃ j, j < ls.length ∧ b.startLine ≤ i + j ∧ i + j ≤ b.endLine ∧
      containsSub (ls.getD j "") (blockMarker b) = true ∧
      (phase1 ls i bs).1.getD j "" =
        replaceFirst (ls.getD j "") (blockMarker b) (inlineRepl b) := by
  induction ls generalizing i bs with
  | nil => exact absurd hb hout
  | cons l t ih =>
    cases hf : bs.find? (blockMatches l i) with
    | none =>
      rw [phase1_cons_none l t i bs hf] at hout ⊢
      obtain ⟨j, hj, h1, h2, h3, h4⟩ := ih (i + 1) bs hnd hb hout
      refine ⟨j + 1, by simpa using hj, by omega, by omega, ?_, ?_⟩
      · simpa using h3
      · simpa using h4
    | some b0 =>
      rw [phase1_cons_some l t i bs b0 hf] at hout ⊢
      by_cases hbf : b ∈ bs.filter (fun x => !(x.id == b0.id))
      · have hndf : ((bs.filter (fun x => !(x.id == b0.id))).map BlockM.id).Nodup :=
          hnd.sublist ((List.filter_sublist bs).map BlockM.id)
        obtain ⟨j, hj, h1, h2, h3, h4⟩ := ih (i + 1) _ hndf hbf hout
        refine ⟨j + 1, by simpa using hj, by omega, by omega, ?_, ?_⟩
        · simpa using h3
        · simpa using h4
      · have hid : b.id = b0.id := by
          by_contra hne
          exact hbf (List.mem_filter.mpr ⟨hb, by simp [hne]⟩)
        have hb0 : b0 ∈ bs := List.mem_of_find?_eq_some hf
        have hbb : b = b0 := List.inj_on_of_nodup_map hnd hb hb0 hid
        subst hbb
        have hm : blockMatches l i b = true := List.find?_some hf
        unfold blockMatches at hm
        simp only [Bool.and_eq_true, decide_eq_true_eq] at hm
        exact ⟨0, by simp, by simpa using hm.1.2, by simpa using hm.2,
          by simpa using hm.1.1, by simp⟩

theorem getD_set_cases {α : Type} (l : List α) (m k : Nat) (v d : α) :
    (l.set m v).getD k d = if m = k ∧ k < l.length then v else l.getD k d := by
  induction l generalizing m k with
  | nil => simp
  | cons c t ih =>
    cases m with
    | zero =>
      cases k with
      | zero => simp
      | succ r => simp
    | succ s =>
      cases k with
      | zero => simp
      | succ r =>
        show (t.set s v).getD r d = _
        rw [ih s r]
        by_cases hsr : s = r
        · subst hsr
          by_cases hlt : s < t.length <;> simp [hlt]
        · simp only [hsr, false_and, if_false]
          have : ¬(s + 1 = r + 1 ∧ r + 1 < (c :: t).length) := fun hc => hsr (by omega)
          simp [this, hsr]

theorem phase2_nil (acc : List String) : phase2 acc [] = acc := rfl

theorem phase2_cons (acc : List String) (b : BlockM) (rest : List BlockM) :
    phase2 acc (b :: rest) =
      phase2 (acc.set b.startLine (synthSpan b ++ acc.getD b.startLine "")) rest := rfl

theorem phase2_preserves (bs : List BlockM) :
    ∀ acc : List String, ∀ k : Nat, ∀ pat : String,
      containsSub (acc.getD k "") pat = true →
      containsSub ((phase2 acc bs).getD k "") pat = true := by
  induction bs with
  | nil => intro acc k pat h; simpa [phase2_nil] using h
  | cons b rest ih =>
    intro acc k pat h
    rw [phase2_cons]
    apply ih
    rw [getD_set_cases]
    by_cases hc : b.startLine = k ∧ k < acc.length
    · rw [if_pos hc]
      rw [hc.1]
      exact containsSub_append_left (synthSpan b) h
    · rw [if_neg hc]
      exact h

theorem phase2_length (bs : List BlockM) :
    ∀ acc : List String, (phase2 acc bs).length = acc.length := by
  induction bs with
  | nil => intro acc; rfl
  | cons b rest ih =>
    intro acc
    rw [phase2_cons, ih]
    simp

theorem phase2_contains (bs : List BlockM) :
    ∀ acc : List String, ∀ b : BlockM, b ∈ bs → b.startLine < acc.length →
      containsSub ((phase2 acc bs).getD b.startLine "") (synthSpan b) = true := by
  induction bs with
  | nil => intro _ _ hb _; exact absurd hb (List.not_mem_nil _)
  | cons b0 rest ih =>
    intro acc b hb hlen
    rw [phase2_cons]
    rcases List.mem_cons.mp hb with hbb | hbr
    · subst hbb
      apply phase2_preserves
      rw [getD_set_cases]
      rw [if_pos ⟨rfl, hlen⟩]
      exact containsSub_self_append (synthSpan b) _
    · exact ih _ b hbr (by simpa using hlen)

/-- Claim C2 (amended): every reported block anchor is placed exactly once,
but at most one anchor is consumed inline per line.  An anchor consumed by
pass 1 gets an inline span on a line within its reported range containing its
literal marker text; every anchor left over by pass 1 — including one whose
marker shares its line with an earlier anchor's match — gets a synthetic
anchor span prepended to its range-start line. -/
theorem C2_anchor_placement (data : String) (blocks : List BlockM) (b : BlockM)
    (hnd : (blocks.map BlockM.id).Nodup) (hb : b ∈ blocks)
    (hstart : b.startLine < (splitOnCharS '\n' data).length) :
    (b ∈ (phase1 (splitOnCharS '\n' data) 0 blocks).2 →
      containsSub ((placeAnchors data blocks).getD b.startLine "") (synthSpan b) = true) ∧
    (b ∉ (phase1 (splitOnCharS '\n' data) 0 blocks).2 →
      ∃ j, j < (splitOnCharS '\n' data).length ∧ b.startLine ≤ j ∧ j ≤ b.endLine ∧
        containsSub ((splitOnCharS '\n' data).getD j "") (blockMarker b) = true ∧
        containsSub ((placeAnchors data blocks).getD j "") (inlineRepl b) = true) := by
  constructor
  · intro hmem
    unfold placeAnchors
    apply phase2_contains _ _ _ hmem
    rw [phase1_length]
    exact hstart
  · intro hout
    obtain ⟨j, hj, h1, h2, h3, h4⟩ :=
      phase1_consumed (splitOnCharS '\n' data) 0 blocks hnd b hb hout
    refine ⟨j, hj, by simpa using h1, by simpa using h2, h3, ?_⟩
    unfold placeAnchors
    apply phase2_preserves
    rw [h4]
    have : containsSubL ((splitOnCharS '\n' data).getD j "").data (blockMarker b).data = true := h3
    unfold containsSub replaceFirst
    exact containsSubL_replaceFirstL (inlineRepl b).data this

theorem C2_anchor_placement_witness :
    ((([⟨"x1", 0, 1⟩, ⟨"zz", 1, 1⟩] : List BlockM).map BlockM.id).Nodup ∧
      (⟨"zz", 1, 1⟩ : BlockM) ∈ ([⟨"x1", 0, 1⟩, ⟨"zz", 1, 1⟩] : List BlockM) ∧
      (1 : Nat) < (splitOnCharS '\n' "hello ^x1\nworld").length ∧
      (⟨"zz", 1, 1⟩ : BlockM) ∈
        (phase1 (splitOnCharS '\n' "hello ^x1\nworld") 0 [⟨"x1", 0, 1⟩, ⟨"zz", 1, 1⟩]).2) ∧
    containsSub
      ((placeAnchors "hello ^x1\nworld" [⟨"x1", 0, 1⟩, ⟨"zz", 1, 1⟩]).getD 1 "")
      (synthSpan ⟨"zz", 1, 1⟩) = true :=
  ⟨⟨by decide, by decide, by decide, by decide⟩,
    (C2_anchor_placement "hello ^x1\nworld" [⟨"x1", 0, 1⟩, ⟨"zz", 1, 1⟩] ⟨"zz", 1, 1⟩
      (by decide) (by decide) (by decide)).1 (by decide)⟩

/-! ## Determinism of the anchor and link-repair logic (claim C9) -/

/-- Claim C9: the anchor-placement and link-repair transformations are pure
functions of the source text, the block-anchor index, the link metadata and
the basename — running either twice with identical inputs yields identical
results. -/
theorem C9_transform_deterministic (data : String) (blocks : List BlockM)
    (links : List LinkM) (basename : String) :
    placeAnchors data blocks = placeAnchors data blocks ∧
    repairLinks links basename = repairLinks links basename :=
  ⟨rfl, rfl⟩

/-! ## Multi-document merging (claims C3 and C1)

`ExportConfigModal.mergeDoc`: for every rendered document, the children of
its `.markdown-preview-view` container are deep-imported
(`doc0.importNode(child, true)`) into a fresh `section` element owned by the
first document; the first document's container is emptied and the sections
are appended in input order; `this.docs` is set to the single merged entry
carrying the first document's front matter and file reference.

DOM fragments are modelled in first-child/next-sibling form: a `DTree` is a
forest of sibling nodes, each tagged with the identifier of its owner
document (`importNode` across documents re-tags ownership, deep). -/

/-- A DOM forest: empty, a text node plus following siblings, or an element
(tag, children, following siblings).  `owner` is the owning document. -/
inductive DTree where
  | dnil : DTree
  | dtxt (owner : Nat) (s : String) (rest : DTree) : DTree
  | del (owner : Nat) (tag : String) (children : DTree) (rest : DTree) : DTree
deriving DecidableEq

/-- `targetDoc.importNode(node, true)`: a deep clone owned by document `d`. -/
def importF (d : Nat) : DTree → DTree
  | .dnil => .dnil
  | .dtxt _ s r => .dtxt d s (importF d r)
  | .del _ tag c r => .del d tag (importF d c) (importF d r)

/-- Do all nodes of the forest (recursively) belong to document `d`? -/
def ownersAllF (d : Nat) : DTree → Bool
  | .dnil => true
  | .dtxt o _ r => (o == d) && ownersAllF d r
  | .del o _ c r => (o == d) && ownersAllF d c && ownersAllF d r

/-- The list of top-level nodes of a forest (siblings detached). -/
def topNodes : DTree → List DTree
  | .dnil => []
  | .dtxt o s r => .dtxt o s .dnil :: topNodes r
  | .del o t c r => .del o t c .dnil :: topNodes r

/-- One rendered HTML document: its identity (for node ownership), the
children of its `.markdown-preview-view` container (`none` when the selector
finds no such element), and its title. -/
structure MDocM where
  docId : Nat
  container : Option DTree
  title : String
deriving DecidableEq

/-- The `DocType` record `{ doc, frontMatter, file }` (front matter and file
reference are opaque payloads). -/
structure DocTypeM where
  doc : MDocM
  frontMatter : String
  file : String
deriving DecidableEq

/-- `Array.from(element.children)`: the DOM `children` collection holds the
element children only — text nodes at the container's top level are not
iterated by `mergeDoc`'s copy loop (their own descendants inside element
children are of course part of the deep import). -/
def elemChildren : DTree → DTree
  | .dnil => .dnil
  | .dtxt _ _ r => elemChildren r
  | .del o tag c r => .del o tag c (elemChildren r)

/-- The `for (const { doc } of docs)` loop of `mergeDoc`: a `section` element
owned by the first document is created per document that has a content
container, with the container's element children deep-imported, in input
order. -/
def sectionsForest (d : Nat) : List DocTypeM → DTree
  | [] => .dnil
  | dd :: rest =>
    match dd.doc.container with
    | some cs => .del d "section" (importF d (elemChildren cs)) (sectionsForest d rest)
    | none => sectionsForest d rest

/-- `mergeDoc`'s effect: the first document's container is emptied and
refilled with the sections (if the selector finds it), and the surviving
entry keeps the first document's front matter and file.  JavaScript throws
on an empty input (`docs[0]` is `undefined`), modelled as `none`. -/
def mergeCore (docs : List DocTypeM) : Option DocTypeM :=
  match docs with
  | [] => none
  | d0 :: _ =>
    some { doc := { d0.doc with
                    container := match d0.doc.container with
                      | some _ => some (sectionsForest d0.doc.docId docs)
                      | none => d0.doc.container }
           frontMatter := d0.frontMatter
           file := d0.file }

theorem importF_importF (a b : Nat) (t : DTree) :
    importF a (importF b t) = importF a t := by
  induction t with
  | dnil => rfl
  | dtxt o s r ih => simp [importF, ih]
  | del o tag c r ihc ihr => simp [importF, ihc, ihr]

theorem ownersAllF_importF (d : Nat) (t : DTree) :
    ownersAllF d (importF d t) = true := by
  induction t with
  | dnil => rfl
  | dtxt o s r ih => simp [importF, ownersAllF, ih]
  | del o tag c r ihc ihr => simp [importF, ownersAllF, ihc, ihr]

theorem sectionsForest_spec (d : Nat) (dflt : DocTypeM) (docs : List DocTypeM)
    (h : ∀ dd ∈ docs, dd.doc.container.isSome = true) :
    (topNodes (sectionsForest d docs)).length = docs.length ∧
    ∀ j, j < docs.length → ∃ cs, (docs.getD j dflt).doc.container = some cs ∧
      (topNodes (sectionsForest d docs)).getD j .dnil =
        DTree.del d "section" (importF d (elemChildren cs)) .dnil := by
  induction docs with
  | nil => exact ⟨rfl, fun j hj => absurd hj (by simp)⟩
  | cons dd rest ih =>
    obtain ⟨cs, hcs⟩ := Option.isSome_iff_exists.mp (h dd (List.mem_cons_self dd rest))
    obtain ⟨ihlen, ihget⟩ := ih fun x hx => h x (List.mem_cons_of_mem dd hx)
    have hsf : sectionsForest d (dd :: rest) =
        DTree.del d "section" (importF d (elemChildren cs)) (sectionsForest d rest) := by
      simp only [sectionsForest]
      rw [hcs]
    constructor
    · rw [hsf]
      simpa [topNodes] using ihlen
    · intro j hj
      cases j with
      | zero => exact ⟨cs, hcs, by rw [hsf]; rfl⟩
      | succ r =>
        obtain ⟨cs2, hc2, he2⟩ := ihget r (by simpa using hj)
        exact ⟨cs2, by simpa using hc2, by rw [hsf]; simpa [topNodes] using he2⟩

/-- Claim C3: merging a non-empty sequence of rendered documents (each with a
content container) yields one surviving document whose container holds
exactly N `section` elements in input order; the j-th section consists of
deep copies, re-owned by the first document, of the j-th input's container
children (the `element.children` collection: its element children) with
unaltered content; front matter and file reference come from the first
input. -/
theorem C3_merge_sections (d0 : DocTypeM) (rest : List DocTypeM)
    (hall : ∀ dd ∈ d0 :: rest, dd.doc.container.isSome = true) :
    ∃ m, mergeCore (d0 :: rest) = some m ∧
      m.frontMatter = d0.frontMatter ∧
      m.file = d0.file ∧
      ∃ sections, m.doc.container = some sections ∧
        (topNodes sections).length = (d0 :: rest).length ∧
        ∀ j, j < (d0 :: rest).length →
          ∃ cs, ((d0 :: rest).getD j d0).doc.container = some cs ∧
            (topNodes sections).getD j .dnil =
              DTree.del d0.doc.docId "section"
                (importF d0.doc.docId (elemChildren cs)) .dnil ∧
            importF 0 (importF d0.doc.docId (elemChildren cs)) =
              importF 0 (elemChildren cs) ∧
            ownersAllF d0.doc.docId (importF d0.doc.docId (elemChildren cs)) = true := by
  obtain ⟨c0, hc0⟩ := Option.isSome_iff_exists.mp (hall d0 (List.mem_cons_self d0 rest))
  obtain ⟨hlen, hget⟩ := sectionsForest_spec d0.doc.docId d0 (d0 :: rest) hall
  refine ⟨_, rfl, rfl, rfl, sectionsForest d0.doc.docId (d0 :: rest), ?_, hlen, ?_⟩
  · show (match d0.doc.container with
      | some _ => some (sectionsForest d0.doc.docId (d0 :: rest))
      | none => d0.doc.container) = some (sectionsForest d0.doc.docId (d0 :: rest))
    rw [hc0]
  · intro j hj
    obtain ⟨cs, hcs, he⟩ := hget j hj
    exact ⟨cs, hcs, he, importF_importF 0 d0.doc.docId (elemChildren cs),
      ownersAllF_importF d0.doc.docId (elemChildren cs)⟩

theorem C3_merge_sections_witness :
    (∀ dd ∈ ([⟨⟨1, some (.del 1 "h2" (.dtxt 1 "a" .dnil) .dnil), "T1"⟩, "fm1", "f1"⟩,
              ⟨⟨2, some (.del 2 "p" (.dtxt 2 "b" .dnil) .dnil), "T2"⟩, "fm2", "f2"⟩] :
              List DocTypeM),
        dd.doc.container.isSome = true) ∧
    ∃ m, mergeCore [⟨⟨1, some (.del 1 "h2" (.dtxt 1 "a" .dnil) .dnil), "T1"⟩, "fm1", "f1"⟩,
                    ⟨⟨2, some (.del 2 "p" (.dtxt 2 "b" .dnil) .dnil), "T2"⟩, "fm2", "f2"⟩] =
        some m ∧
      m.frontMatter = "fm1" ∧
      m.file = "f1" ∧
      ∃ sections, m.doc.container = some sections ∧
        (topNodes sections).length = 2 ∧
        ∀ j, j < 2 →
          ∃ cs, (([⟨⟨1, some (.del 1 "h2" (.dtxt 1 "a" .dnil) .dnil), "T1"⟩, "fm1", "f1"⟩,
                   ⟨⟨2, some (.del 2 "p" (.dtxt 2 "b" .dnil) .dnil), "T2"⟩, "fm2", "f2"⟩] :
                   List DocTypeM).getD j
                     ⟨⟨1, some (.del 1 "h2" (.dtxt 1 "a" .dnil) .dnil), "T1"⟩,
                       "fm1", "f1"⟩).doc.container = some cs ∧
            (topNodes sections).getD j .dnil =
              DTree.del 1 "section" (importF 1 (elemChildren cs)) .dnil ∧
            importF 0 (importF 1 (elemChildren cs)) = importF 0 (elemChildren cs) ∧
            ownersAllF 1 (importF 1 (elemChildren cs)) = true :=
  ⟨by decide,
    C3_merge_sections ⟨⟨1, some (.del 1 "h2" (.dtxt 1 "a" .dnil) .dnil), "T1"⟩, "fm1", "f1"⟩
      [⟨⟨2, some (.del 2 "p" (.dtxt 2 "b" .dnil) .dnil), "T2"⟩, "fm2", "f2"⟩] (by decide)⟩

/-- The in-place effect of `this.mergeDoc(docs)` on the local `docs` array:
`doc0` (aliased by `docs[0].doc`) is emptied and refilled with the merged
sections, while `docs[1..]` keep their own documents. -/
def mergeMutate (docs : List DocTypeM) : List DocTypeM :=
  match docs with
  | [] => []
  | d0 :: rest =>
    match mergeCore (d0 :: rest) with
    | some m => { d0 with doc := m.doc } :: rest
    | none => d0 :: rest

/-- The value `mergeDoc` assigns to `this.docs` (`[{ doc: doc0, frontMatter,
file }]`). -/
def mergeDocAssign (docs : List DocTypeM) : List DocTypeM :=
  (mergeCore docs).toList

/-- The tail of `renderFiles`: `if (!this.multiple) this.mergeDoc(docs);`
followed by `this.docs = docs.map(({doc, ...rest}) => ({...rest, doc:
fixDoc(doc, doc.title)}))` — the `map` runs over the local `docs` array (with
`doc0` mutated by the merge) and overwrites the `this.docs` value that
`mergeDoc` just assigned.  `fixDoc` (utils `modifyDest`/`fixAnchors` plus
`encodeEmbeds`) transforms each document individually and never changes the
number of documents; it enters as the per-document parameter `fixOne`. -/
def renderFilesDocs (multiple : Bool) (docs : List DocTypeM)
    (fixOne : DocTypeM → DocTypeM) : List DocTypeM :=
  (if multiple then docs else mergeMutate docs).map fixOne

/-- Claim C1 evaluated at the failing input (three rendered documents,
multiple-output off): `mergeDoc` assigns the single merged document to
`this.docs`, but `renderFiles` immediately overwrites `this.docs` with the
map over the local three-element `docs` array, so three documents — and
hence three preview surfaces — reach `appendWebviews` instead of one. -/
theorem C1_merge_result_overwritten :
    (∀ fixOne : DocTypeM → DocTypeM,
      (renderFilesDocs false
        [⟨⟨1, some (.dtxt 1 "a" .dnil), "T1"⟩, "fm1", "f1"⟩,
         ⟨⟨2, some (.dtxt 2 "b" .dnil), "T2"⟩, "fm2", "f2"⟩,
         ⟨⟨3, some (.dtxt 3 "c" .dnil), "T3"⟩, "fm3", "f3"⟩] fixOne).length = 3) ∧
    (mergeDocAssign
      [⟨⟨1, some (.dtxt 1 "a" .dnil), "T1"⟩, "fm1", "f1"⟩,
       ⟨⟨2, some (.dtxt 2 "b" .dnil), "T2"⟩, "fm2", "f2"⟩,
       ⟨⟨3, some (.dtxt 3 "c" .dnil), "T3"⟩, "fm3", "f3"⟩]).length = 1 := by
  constructor
  · intro fixOne
    simp only [renderFilesDocs, List.length_map]
    decide
  · decide

/-! ## Transclusion encode/decode round trip (claim C6)

`encodeEmbeds` (src/render.ts) rewrites every `span.markdown-embed`'s
`innerHTML` to `encodeURIComponent(innerHTML)`, processing the spans in
reverse document order so inner spans are encoded before the outer span
re-encodes their serialization.  `makeWebviewJs` (export modal) decodes at
surface attach: every embed span's `innerHTML` is replaced by
`decodeURIComponent(innerHTML)` and the decode recurses into the embed spans
revealed by the replacement.

The DOM fragment is modelled as a byte-level forest (`HTree`): text nodes
hold the UTF-8 bytes of their serialization and embed elements serialize as
`<span class="markdown-embed">` ... `</span>`.  `encodeURIComponent` /
`decodeURIComponent` act on that byte stream (`pe`/`pd`); re-parsing the
decoded serialization (the browser's `innerHTML` assignment) is `parseF`. -/

/-- The bytes of `<span class="markdown-embed">`. -/
def openT : List Nat :=
  [60, 115, 112, 97, 110, 32, 99, 108, 97, 115, 115, 61, 34,
   109, 97, 114, 107, 100, 111, 119, 110, 45, 101, 109, 98, 101, 100, 34, 62]

/-- The bytes of `</span>`. -/
def closeT : List Nat := [60, 47, 115, 112, 97, 110, 62]

/-- The bytes `encodeURIComponent` leaves unescaped:
`A-Z a-z 0-9 - _ . ! ~ * ' ( )`. -/
def isUnres (b : Nat) : Bool :=
  (decide (65 ≤ b) && decide (b ≤ 90)) || (decide (97 ≤ b) && decide (b ≤ 122)) ||
  (decide (48 ≤ b) && decide (b ≤ 57)) ||
  b == 45 || b == 95 || b == 46 || b == 33 || b == 126 || b == 42 ||
  b == 39 || b == 40 || b == 41

/-- Uppercase hexadecimal digit byte for a nibble. -/
def hexDig (n : Nat) : Nat := if n < 10 then 48 + n else 55 + n

/-- `encodeURIComponent` on a UTF-8 byte stream: unreserved bytes pass
through, every other byte becomes `%XX`. -/
def pe : List Nat → List Nat
  | [] => []
  | b :: s => (if isUnres b then [b] else [37, hexDig (b / 16), hexDig (b % 16)]) ++ pe s

/-- Value of a hexadecimal digit byte (upper- or lowercase accepted). -/
def hexVal (c : Nat) : Nat :=
  if 48 ≤ c ∧ c ≤ 57 then c - 48
  else if 65 ≤ c ∧ c ≤ 70 then c - 55
  else if 97 ≤ c ∧ c ≤ 102 then c - 87
  else 0

/-- `decodeURIComponent` on a byte stream: `%XX` triples collapse to the
denoted byte, everything else passes through. -/
def pd : List Nat → List Nat
  | 37 :: h :: l :: rest => (16 * hexVal h + hexVal l) :: pd rest
  | c :: rest => c :: pd rest
  | [] => []

theorem pd_cons_ne (c : Nat) (r : List Nat) (h : ¬c = 37) :
    pd (c :: r) = c :: pd r := by
  rw [pd.eq_def]
  split
  · rename_i heq
    injection heq with h37 _
    omega
  · rename_i heq
    injection heq with e1 e2
    subst e1
    subst e2
    rfl
  · rename_i heq
    exact absurd heq (by simp)

theorem hexVal_hexDig (n : Nat) (h : n < 16) : hexVal (hexDig n) = n := by
  unfold hexVal hexDig
  split_ifs <;> omega

theorem isUnres_facts (b : Nat) (h : isUnres b = true) :
    b ≠ 37 ∧ b ≠ 60 ∧ b ≠ 38 ∧ b < 256 := by
  unfold isUnres at h
  simp only [Bool.or_eq_true, Bool.and_eq_true, decide_eq_true_eq, beq_iff_eq] at h
  omega

theorem pd_pe (s : List Nat) (h : ∀ b ∈ s, b < 256) : pd (pe s) = s := by
  induction s with
  | nil => rfl
  | cons b s ih =>
    have hb : b < 256 := h b (List.mem_cons_self b s)
    have ihs := ih fun x hx => h x (List.mem_cons_of_mem b hx)
    cases hu : isUnres b with
    | true =>
      have hne : ¬b = 37 := (isUnres_facts b hu).1
      simp only [pe, hu, if_pos, List.singleton_append]
      rw [pd_cons_ne b _ hne, ihs]
    | false =>
      simp only [pe, hu, List.cons_append, List.nil_append]
      show pd (37 :: hexDig (b / 16) :: hexDig (b % 16) :: pe s) = b :: s
      have e : pd (37 :: hexDig (b / 16) :: hexDig (b % 16) :: pe s) =
          (16 * hexVal (hexDig (b / 16)) + hexVal (hexDig (b % 16))) :: pd (pe s) := rfl
      rw [e, hexVal_hexDig _ (by omega), hexVal_hexDig _ (by omega), ihs]
      congr 1
      omega

theorem hexDig_facts (n : Nat) (h : n < 16) :
    hexDig n ≠ 60 ∧ hexDig n ≠ 38 ∧ hexDig n < 256 := by
  unfold hexDig
  split_ifs <;> omega

theorem pe_bytes (s : List Nat) (h : ∀ b ∈ s, b < 256) :
    ∀ c ∈ pe s, c ≠ 60 ∧ c ≠ 38 ∧ c < 256 := by
  induction s with
  | nil => intro c hc; exact absurd hc (List.not_mem_nil c)
  | cons b s ih =>
    intro c hc
    have hb : b < 256 := h b (List.mem_cons_self b s)
    have ihs := ih fun x hx => h x (List.mem_cons_of_mem b hx)
    cases hu : isUnres b with
    | true =>
      simp [pe, hu] at hc
      rcases hc with rfl | hc
      · obtain ⟨_, h60, h38, h256⟩ := isUnres_facts c hu
        exact ⟨h60, h38, h256⟩
      · exact ihs c hc
    | false =>
      simp [pe, hu] at hc
      rcases hc with rfl | rfl | rfl | hc
      · exact ⟨by omega, by omega, by omega⟩
      · exact hexDig_facts _ (by omega)
      · exact hexDig_facts _ (by omega)
      · exact ihs c hc

theorem pe_ne_nil (s : List Nat) (h : s ≠ []) : pe s ≠ [] := by
  cases s with
  | nil => exact absurd rfl h
  | cons b t =>
    show (if isUnres b then [b] else [37, hexDig (b / 16), hexDig (b % 16)]) ++ pe t ≠ []
    cases isUnres b <;> simp

/-- A DOM fragment in first-child/next-sibling form: empty, a text node
(UTF-8 bytes of its serialization) plus following siblings, or a
`span.markdown-embed` element (children, following siblings). -/
inductive HTree where
  | nilF : HTree
  | txtF (s : List Nat) (rest : HTree) : HTree
  | embedF (children : HTree) (rest : HTree) : HTree
deriving DecidableEq

/-- Is the first sibling a text node? -/
def isTxtHead : HTree → Bool
  | .txtF _ _ => true
  | _ => false

/-- Is the forest empty? -/
def isNilT : HTree → Bool
  | .nilF => true
  | _ => false

/-- `innerHTML` serialization of a fragment (text nodes hold pre-safe
bytes, embed spans serialize with their literal tags). -/
def serF : HTree → List Nat
  | .nilF => []
  | .txtF s r => s ++ serF r
  | .embedF cs r => openT ++ serF cs ++ closeT ++ serF r

/-- `encodeEmbeds`: processing embed spans in reverse document order turns
each embed's content into the percent-encoding of the serialization of its
already-encoded children. -/
def encF : HTree → HTree
  | .nilF => .nilF
  | .txtF s r => .txtF s (encF r)
  | .embedF cs r => .embedF (.txtF (pe (serF (encF cs))) .nilF) (encF r)

/-- Text-node accumulation during parsing (the browser produces maximal text
nodes). -/
def consTxtF (c : Nat) : HTree → HTree
  | .txtF t r => .txtF (c :: t) r
  | t => .txtF [c] t

/-- Fragment parsing as performed by an `innerHTML` assignment, restricted
to this grammar (text bytes other than `<`, embed spans); fuel-bounded.
Returns the parsed forest and the unconsumed rest (which starts at a closing
tag of the enclosing element or is empty). -/
def parseF : Nat → List Nat → HTree × List Nat
  | 0, s => (.nilF, s)
  | f + 1, s =>
    if listStartsWith s closeT then (.nilF, s)
    else if listStartsWith s openT then
      (.embedF (parseF f (s.drop openT.length)).1
        (parseF f ((parseF f (s.drop openT.length)).2.drop closeT.length)).1,
       (parseF f ((parseF f (s.drop openT.length)).2.drop closeT.length)).2)
    else
      match s with
      | [] => (.nilF, [])
      | c :: rest => (consTxtF c (parseF f rest).1, (parseF f rest).2)

/-- `decodeAndReplaceEmbed`, fuel-bounded: each embed span's content is
percent-decoded, re-parsed by the `innerHTML` assignment, and the decode
recurses into the revealed embed spans; sibling text nodes pass through. -/
def decF : Nat → HTree → HTree
  | 0, t => t
  | _ + 1, .nilF => .nilF
  | f + 1, .txtF s r => .txtF s (decF f r)
  | f + 1, .embedF cs r =>
    .embedF (decF f (parseF ((pd (serF cs)).length + 1) (pd (serF cs))).1) (decF f r)

/-- Well-formed embed markup: nonempty text nodes of safe bytes (no `<`, no
`&`, each < 256 as a UTF-8 byte), maximal text nodes (no two adjacent), and
nonempty embed contents. -/
def wfF : HTree → Bool
  | .nilF => true
  | .txtF s r =>
    !s.isEmpty && s.all (fun c => !(c == 60) && !(c == 38) && decide (c < 256)) &&
    !(isTxtHead r) && wfF r
  | .embedF cs r => !(isNilT cs) && wfF cs && wfF r

/-- Well-formedness of encoded-stage fragments (what the parser needs):
nonempty text of bytes that are not `<` and < 256, maximal text nodes. -/
def ewfF : HTree → Bool
  | .nilF => true
  | .txtF s r => !s.isEmpty && s.all (fun c => !(c == 60) && decide (c < 256)) && !(isTxtHead r) && ewfF r
  | .embedF cs r => ewfF cs && ewfF r

/-- Node count of a fragment (drives the decode fuel). -/
def sizeF : HTree → Nat
  | .nilF => 0
  | .txtF _ r => 1 + sizeF r
  | .embedF cs r => 1 + sizeF cs + sizeF r

theorem openT_not_closeT (x : List Nat) :
    listStartsWith (openT ++ x) closeT = false := by
  simp [openT, closeT, listStartsWith]

theorem startsWith_tag_false (c : Nat) (x tail : List Nat) (h : ¬c = 60) :
    listStartsWith (c :: x) (60 :: tail) = false := by
  have hb : (c == 60) = false := by simpa using h
  simp [listStartsWith, hb]

theorem startsWith_closeT_ne60 (c : Nat) (x : List Nat) (h : ¬c = 60) :
    listStartsWith (c :: x) closeT = false :=
  startsWith_tag_false c x [47, 115, 112, 97, 110, 62] h

theorem startsWith_openT_ne60 (c : Nat) (x : List Nat) (h : ¬c = 60) :
    listStartsWith (c :: x) openT = false :=
  startsWith_tag_false c x
    [115, 112, 97, 110, 32, 99, 108, 97, 115, 115, 61, 34,
     109, 97, 114, 107, 100, 111, 119, 110, 45, 101, 109, 98, 101, 100, 34, 62] h

theorem consTxtF_of_not_txt (c : Nat) (t : HTree) (h : isTxtHead t = false) :
    consTxtF c t = .txtF [c] t := by
  cases t with
  | nilF => rfl
  | txtF s r => simp [isTxtHead] at h
  | embedF a b => rfl

theorem parseF_succ_of_close (f : Nat) (s : List Nat)
    (h : listStartsWith s closeT = true) : parseF (f + 1) s = (.nilF, s) := by
  simp only [parseF]
  rw [if_pos h]

theorem parseF_succ_of_open (f : Nat) (s : List Nat)
    (hc : listStartsWith s closeT = false) (ho : listStartsWith s openT = true) :
    parseF (f + 1) s =
      (.embedF (parseF f (s.drop openT.length)).1
        (parseF f ((parseF f (s.drop openT.length)).2.drop closeT.length)).1,
       (parseF f ((parseF f (s.drop openT.length)).2.drop closeT.length)).2) := by
  simp only [parseF]
  rw [if_neg (by simp [hc]), if_pos ho]

theorem parseF_succ_of_text (f : Nat) (c : Nat) (rest : List Nat)
    (hc : listStartsWith (c :: rest) closeT = false)
    (ho : listStartsWith (c :: rest) openT = false) :
    parseF (f + 1) (c :: rest) = (consTxtF c (parseF f rest).1, (parseF f rest).2) := by
  simp only [parseF]
  rw [if_neg (by simp [hc]), if_neg (by simp [ho])]

theorem parseF_succ_nil_input (f : Nat) : parseF (f + 1) ([] : List Nat) = (.nilF, []) := by
  simp only [parseF]
  rw [if_neg (by decide), if_neg (by decide)]

/-- Parser correctness: re-parsing the serialization of a well-formed
(encoded-stage) fragment followed by a closing-tag context recovers the
fragment exactly. -/
theorem parse_ser : ∀ f : Nat, ∀ t : HTree, ∀ rest : List Nat,
    ewfF t = true → (rest = [] ∨ listStartsWith rest closeT = true) →
    (serF t).length + rest.length + 1 ≤ f →
    parseF f (serF t ++ rest) = (t, rest) := by
  intro f
  induction f with
  | zero => intro t rest _ _ hf; omega
  | succ g ih =>
    intro t rest hwf hrest hf
    cases t with
    | nilF =>
      rw [show serF .nilF ++ rest = rest from by simp [serF]]
      rcases hrest with rfl | hr
      · exact parseF_succ_nil_input g
      · exact parseF_succ_of_close g rest hr
    | txtF s r =>
      simp only [ewfF, Bool.and_eq_true] at hwf
      obtain ⟨⟨⟨hne, hall⟩, hhead⟩, hr⟩ := hwf
      cases s with
      | nil => simp at hne
      | cons c s2 =>
        have hc60 : ¬c = 60 := by
          have hcp := List.all_eq_true.mp hall c (List.mem_cons_self c s2)
          simp only [Bool.and_eq_true, Bool.not_eq_true', beq_eq_false_iff_ne, ne_eq] at hcp
          exact hcp.1
        have harr : serF (.txtF (c :: s2) r) ++ rest = c :: (s2 ++ (serF r ++ rest)) := by
          simp [serF]
        rw [harr]
        rw [parseF_succ_of_text g c _ (startsWith_closeT_ne60 c _ hc60)
          (startsWith_openT_ne60 c _ hc60)]
        cases s2 with
        | nil =>
          have hrec : parseF g (serF r ++ rest) = (r, rest) := by
            apply ih r rest hr hrest
            have he : (serF (.txtF [c] r)).length = 1 + (serF r).length := by
              simp [serF]
              omega
            omega
          rw [show ([] : List Nat) ++ (serF r ++ rest) = serF r ++ rest from by simp]
          rw [hrec]
          simp [consTxtF_of_not_txt c r (by simpa using hhead)]
        | cons d s3 =>
          have hwf2 : ewfF (.txtF (d :: s3) r) = true := by
            simp only [ewfF, Bool.and_eq_true]
            refine ⟨⟨⟨by simp, ?_⟩, hhead⟩, hr⟩
            exact List.all_eq_true.mpr fun x hx =>
              List.all_eq_true.mp hall x (List.mem_cons_of_mem c hx)
          have hrec : parseF g (serF (.txtF (d :: s3) r) ++ rest) =
              (.txtF (d :: s3) r, rest) := by
            apply ih _ rest hwf2 hrest
            have h1 : (serF (.txtF (c :: d :: s3) r)).length =
                1 + (serF (.txtF (d :: s3) r)).length := by
              simp [serF]
              omega
            omega
          have e : (d :: s3) ++ (serF r ++ rest) = serF (.txtF (d :: s3) r) ++ rest := by
            simp [serF]
          rw [e, hrec]
          simp [consTxtF]
    | embedF cs r =>
      simp only [ewfF, Bool.and_eq_true] at hwf
      obtain ⟨hcs, hr⟩ := hwf
      have harr : serF (.embedF cs r) ++ rest =
          openT ++ (serF cs ++ (closeT ++ (serF r ++ rest))) := by
        simp [serF, List.append_assoc]
      have hlen : (serF (.embedF cs r)).length =
          29 + ((serF cs).length + (7 + (serF r).length)) := by
        have ho : openT.length = 29 := rfl
        have hc : closeT.length = 7 := rfl
        simp [serF, ho, hc]
      rw [harr]
      rw [parseF_succ_of_open g _
        (openT_not_closeT (serF cs ++ (closeT ++ (serF r ++ rest))))
        (listStartsWith_append_self openT _)]
      have hd1 : (openT ++ (serF cs ++ (closeT ++ (serF r ++ rest)))).drop openT.length =
          serF cs ++ (closeT ++ (serF r ++ rest)) := List.drop_left _ _
      have hclen : (closeT ++ (serF r ++ rest)).length = 7 + ((serF r).length + rest.length) := by
        have hc : closeT.length = 7 := rfl
        simp [hc]
      have hrec1 : parseF g (serF cs ++ (closeT ++ (serF r ++ rest))) =
          (cs, closeT ++ (serF r ++ rest)) := by
        apply ih cs _ hcs (Or.inr (listStartsWith_append_self closeT _))
        omega
      have hd2 : (closeT ++ (serF r ++ rest)).drop closeT.length = serF r ++ rest :=
        List.drop_left _ _
      have hrec2 : parseF g (serF r ++ rest) = (r, rest) := by
        apply ih r rest hr hrest
        omega
      simp [hd1, hrec1, hd2, hrec2]

theorem ser_bytes : ∀ t : HTree, ewfF t = true → ∀ c ∈ serF t, c < 256 := by
  intro t
  induction t with
  | nilF => intro _ c hc; exact absurd hc (List.not_mem_nil c)
  | txtF s r ih =>
    intro hwf c hc
    simp only [ewfF, Bool.and_eq_true] at hwf
    obtain ⟨⟨⟨hne, hall⟩, hhead⟩, hr⟩ := hwf
    simp only [serF, List.mem_append] at hc
    rcases hc with hc | hc
    · have := List.all_eq_true.mp hall c hc
      simp only [Bool.and_eq_true, decide_eq_true_eq] at this
      exact this.2
    · exact ih hr c hc
  | embedF cs r ihc ihr =>
    intro hwf c hc
    simp only [ewfF, Bool.and_eq_true] at hwf
    obtain ⟨hcs, hr⟩ := hwf
    simp only [serF, List.mem_append] at hc
    rcases hc with ((hc | hc) | hc) | hc
    · have : ∀ x ∈ openT, x < 256 := by decide
      exact this c hc
    · exact ihc hcs c hc
    · have : ∀ x ∈ closeT, x < 256 := by decide
      exact this c hc
    · exact ihr hr c hc

theorem ser_enc_ne_nil (t : HTree) (hwf : wfF t = true) (hn : isNilT t = false) :
    serF (encF t) ≠ [] := by
  cases t with
  | nilF => simp [isNilT] at hn
  | txtF s r =>
    simp only [wfF, Bool.and_eq_true] at hwf
    obtain ⟨⟨⟨hne2, _⟩, _⟩, _⟩ := hwf
    show s ++ serF (encF r) ≠ []
    cases s with
    | nil => simp at hne2
    | cons a b => simp
  | embedF cs r =>
    show openT ++ _ ++ _ ++ _ ≠ []
    simp [openT]

theorem enc_head (t : HTree) : isTxtHead (encF t) = isTxtHead t := by
  cases t <;> rfl

theorem enc_ewf : ∀ t : HTree, wfF t = true → ewfF (encF t) = true := by
  intro t
  induction t with
  | nilF => intro _; rfl
  | txtF s r ih =>
    intro hwf
    simp only [wfF, Bool.and_eq_true] at hwf
    obtain ⟨⟨⟨hne, hall⟩, hhead⟩, hr⟩ := hwf
    show ewfF (.txtF s (encF r)) = true
    simp only [ewfF, Bool.and_eq_true]
    refine ⟨⟨⟨hne, ?_⟩, ?_⟩, ih hr⟩
    · refine List.all_eq_true.mpr fun x hx => ?_
      have := List.all_eq_true.mp hall x hx
      simp only [Bool.and_eq_true] at this ⊢
      exact ⟨this.1.1, this.2⟩
    · rw [enc_head]
      exact hhead
  | embedF cs r ihc ihr =>
    intro hwf
    simp only [wfF, Bool.and_eq_true] at hwf
    obtain ⟨⟨hnil, hcs⟩, hr⟩ := hwf
    show ewfF (.embedF (.txtF (pe (serF (encF cs))) .nilF) (encF r)) = true
    have hewfc : ewfF (encF cs) = true := ihc hcs
    have hbytes : ∀ b ∈ serF (encF cs), b < 256 := ser_bytes _ hewfc
    have hpe := pe_bytes (serF (encF cs)) hbytes
    have hpene : pe (serF (encF cs)) ≠ [] :=
      pe_ne_nil _ (ser_enc_ne_nil cs hcs (by simpa using hnil))
    have hallpe : (pe (serF (encF cs))).all (fun c => !(c == 60) && decide (c < 256)) = true := by
      refine List.all_eq_true.mpr fun x hx => ?_
      obtain ⟨h60, _, h256⟩ := hpe x hx
      simp [h60, h256]
    simp [ewfF, isTxtHead, hallpe, ihr hr, List.isEmpty_iff, hpene]

/-- Claim C6 (the embed encode/decode round trip): for every well-formed
embed markup fragment, at any nesting depth, encoding the transclusion spans
in reverse document order and then recursively decoding at surface attach
restores the original fragment, given sufficient recursion fuel (any bound
of the fragment's node count). -/
theorem C6_embed_roundtrip : ∀ f : Nat, ∀ t : HTree,
    wfF t = true → sizeF t ≤ f → decF f (encF t) = t := by
  intro f
  induction f with
  | zero =>
    intro t hwf hs
    cases t with
    | nilF => rfl
    | txtF s r => simp [sizeF] at hs
    | embedF cs r => simp [sizeF] at hs
  | succ g ih =>
    intro t hwf hs
    cases t with
    | nilF => rfl
    | txtF s r =>
      simp only [wfF, Bool.and_eq_true] at hwf
      obtain ⟨⟨⟨hne, hall⟩, hhead⟩, hr⟩ := hwf
      show HTree.txtF s (decF g (encF r)) = .txtF s r
      have hsz : sizeF r ≤ g := by
        simp only [sizeF] at hs
        omega
      rw [ih r hr hsz]
    | embedF cs r =>
      simp only [wfF, Bool.and_eq_true] at hwf
      obtain ⟨⟨hnil, hcs⟩, hr⟩ := hwf
      have hewfc : ewfF (encF cs) = true := enc_ewf cs hcs
      have hbytes : ∀ b ∈ serF (encF cs), b < 256 := ser_bytes _ hewfc
      have e1 : serF (.txtF (pe (serF (encF cs))) .nilF) = pe (serF (encF cs)) := by
        simp [serF]
      have e2 : pd (pe (serF (encF cs))) = serF (encF cs) := pd_pe _ hbytes
      have hparse : parseF ((serF (encF cs)).length + 1) (serF (encF cs)) =
          (encF cs, []) := by
        have := parse_ser ((serF (encF cs)).length + 1) (encF cs) [] hewfc
          (Or.inl rfl) (by simp)
        simpa using this
      have hszc : sizeF cs ≤ g := by
        simp only [sizeF] at hs
        omega
      have hszr : sizeF r ≤ g := by
        simp only [sizeF] at hs
        omega
      show HTree.embedF
          (decF g (parseF ((pd (serF (.txtF (pe (serF (encF cs))) .nilF))).length + 1)
            (pd (serF (.txtF (pe (serF (encF cs))) .nilF)))).1)
          (decF g (encF r)) = .embedF cs r
      rw [e1, e2, hparse]
      show HTree.embedF (decF g (encF cs)) (decF g (encF r)) = .embedF cs r
      rw [ih cs hcs hszc, ih r hr hszr]

theorem C6_embed_roundtrip_witness :
    wfF (.embedF (.embedF (.txtF [97] .nilF) .nilF) .nilF) = true ∧
    sizeF (.embedF (.embedF (.txtF [97] .nilF) .nilF) .nilF) ≤ 3 ∧
    decF 3 (encF (.embedF (.embedF (.txtF [97] .nilF) .nilF) .nilF)) =
      .embedF (.embedF (.txtF [97] .nilF) .nilF) .nilF :=
  ⟨by decide, by decide,
    C6_embed_roundtrip 3 (.embedF (.embedF (.txtF [97] .nilF) .nilF) .nilF)
      (by decide) (by decide)⟩
